import Mathlib

/-!
Shallow embedding of `src/includes/timer/timer.hpp` (cpptimer).

Times and durations (`std::chrono::steady_clock::time_point` / `duration`)
are modelled as `Int` tick counts.  `timer_id` is `unsigned long long`,
modelled as `Nat` with arithmetic taken `% 2^64`; the sentinel
`invalid_timer = (timer_id)(-1)` is `2^64 - 1`.

A callback `std::function<void()>` has two observable aspects for the
scheduler: whether it is empty (`if (!this->handler)`) and how many times it
is invoked.  We model the handler as a `Bool` (non-empty?) and make every
operation return the number of invocations it performed.  For claims about
throwing callbacks a second embedding (`Timer.updateE`) lets the k-th
invocation of a tick raise, mirroring C++ exception propagation: the throw
aborts the tick at that point, so statements after the call never run.

The catch-up `while` loops of `timer::update` need not terminate (e.g. a
zero interval), so they take a fuel argument and return `Option`; `none`
means the loop did not complete within the given fuel.  Separate theorems
show fuel-independence/termination when the interval is positive.

`std::hash_map<timer_id, timer*>` is modelled as an association list; the
manager keeps keys unique (proved from `get_id`), and no claim depends on
hash iteration order.  `manager::update` samples `clock::now()` once per
timer inside its loop; the model passes a single pass time `now`, which is
what every claim quantifies over.
-/

namespace Cpptimer

/-- `static const timer_id invalid_timer = -1` with `timer_id = unsigned long long`. -/
def invalid_timer : Nat := 2 ^ 64 - 1

/-- One `timer` object: handler emptiness, `next`, `interval`, `count`.
(`id` lives in the manager's map key; `last` is never read in the source.) -/
structure Timer where
  hasHandler : Bool
  next : Int
  interval : Int
  count : Int
deriving Repr, DecidableEq

/-- `timer::timer(handler, interval, count)`: sets `next = clock::now() + interval`. -/
def mkTimer (hasHandler : Bool) (interval : Int) (count : Int) (now : Int) : Timer :=
  { hasHandler := hasHandler, next := now + interval, interval := interval, count := count }

/-- `timer::execute()`: invoke the handler, then `next += interval`.
The invocation itself is recorded by the callers' fire counts. -/
def Timer.execute (t : Timer) : Timer :=
  { t with next := t.next + t.interval }

/-- Result of `timer::update`: the mutated timer, the returned `bool`
(`true` = finished) and how many times the handler was invoked. -/
structure TickResult where
  t : Timer
  finished : Bool
  fires : Nat
deriving Repr, DecidableEq

/-- The `count == 0` branch's `while (next <= now) execute();` loop, with fuel.
Returns the final `next` and the number of handler invocations. -/
def loopInfinite (now interval : Int) : Nat → Int → Option (Int × Nat)
  | 0, next => if next ≤ now then none else some (next, 0)
  | fuel + 1, next =>
    if next ≤ now then
      (loopInfinite now interval fuel (next + interval)).map (fun p => (p.1, p.2 + 1))
    else
      some (next, 0)

/-- The `count > 1` branch's loop, with fuel:
`while (next <= now) { execute(); count -= 1; if (count == 1) return true; }`.
Returns final `next`, final `count`, invocation count, and whether the loop
returned `true` (finished) from inside. -/
def loopBounded (now interval : Int) : Nat → Int → Int → Option (Int × Int × Nat × Bool)
  | 0, next, count => if next ≤ now then none else some (next, count, 0, false)
  | fuel + 1, next, count =>
    if next ≤ now then
      if count - 1 = 1 then
        some (next + interval, count - 1, 1, true)
      else
        (loopBounded now interval fuel (next + interval) (count - 1)).map
          (fun p => (p.1, p.2.1, p.2.2.1 + 1, p.2.2.2))
    else
      some (next, count, 0, false)

/-- `timer::update()`, with `clock::now()` passed in as `now`. -/
def Timer.update (t : Timer) (now : Int) (fuel : Nat) : Option TickResult :=
  if !t.hasHandler then
    some ⟨t, true, 0⟩
  else if t.next ≤ now then
    if t.count < 0 then
      some ⟨t.execute, true, 1⟩
    else if t.count = 0 then
      (loopInfinite now t.interval fuel t.next).map
        (fun p => ⟨{ t with next := p.1 }, false, p.2⟩)
    else if t.count > 1 then
      (loopBounded now t.interval fuel t.next t.count).map
        (fun p => ⟨{ t with next := p.1, count := p.2.1 }, p.2.2.2, p.2.2.1⟩)
    else
      some ⟨t, true, 0⟩
  else
    some ⟨t, false, 0⟩

/-- `timer::execute()` when the handler may throw: the C++ statement order is
`handler(); next += interval;`, so a throwing handler aborts `execute` before
the advance and the exception propagates with the timer unchanged. -/
def Timer.executeE (throws : Bool) (t : Timer) : Except Timer Timer :=
  if throws then Except.error t else Except.ok t.execute

/-- `loopInfinite` when the k-th handler invocation of the tick may throw
(`f k = true`).  `k` counts completed invocations so far; a throw aborts the
loop with `next` not yet advanced for the failing invocation. -/
def loopInfiniteE (f : Nat → Bool) (now interval : Int) :
    Nat → Int → Nat → Option (Except (Int × Nat) (Int × Nat))
  | 0, next, k => if next ≤ now then none else some (Except.ok (next, k))
  | fuel + 1, next, k =>
    if next ≤ now then
      if f k then some (Except.error (next, k))
      else loopInfiniteE f now interval fuel (next + interval) (k + 1)
    else
      some (Except.ok (next, k))

/-- `loopBounded` when the k-th handler invocation of the tick may throw:
a throw aborts before `next += interval` and before `count -= 1`. -/
def loopBoundedE (f : Nat → Bool) (now interval : Int) :
    Nat → Int → Int → Nat → Option (Except (Int × Int × Nat) (Int × Int × Nat × Bool))
  | 0, next, count, k => if next ≤ now then none else some (Except.ok (next, count, k, false))
  | fuel + 1, next, count, k =>
    if next ≤ now then
      if f k then some (Except.error (next, count, k))
      else if count - 1 = 1 then some (Except.ok (next + interval, count - 1, k + 1, true))
      else loopBoundedE f now interval fuel (next + interval) (count - 1) (k + 1)
    else
      some (Except.ok (next, count, k, false))

/-- `timer::update` under C++ exception propagation: `f k = true` means the
k-th handler invocation of this tick throws.  The `Except.error` side carries
the timer's state at the moment the exception escapes `update`, plus the
number of invocations that completed normally. -/
def Timer.updateE (f : Nat → Bool) (t : Timer) (now : Int) (fuel : Nat) :
    Option (Except (Timer × Nat) TickResult) :=
  if !t.hasHandler then
    some (Except.ok ⟨t, true, 0⟩)
  else if t.next ≤ now then
    if t.count < 0 then
      if f 0 then some (Except.error (t, 0)) else some (Except.ok ⟨t.execute, true, 1⟩)
    else if t.count = 0 then
      (loopInfiniteE f now t.interval fuel t.next 0).map
        (fun e =>
          match e with
          | Except.error (n, k) => Except.error ({ t with next := n }, k)
          | Except.ok (n, k) => Except.ok ⟨{ t with next := n }, false, k⟩)
    else if t.count > 1 then
      (loopBoundedE f now t.interval fuel t.next t.count 0).map
        (fun e =>
          match e with
          | Except.error (n, c, k) => Except.error ({ t with next := n, count := c }, k)
          | Except.ok (n, c, k, fin) => Except.ok ⟨{ t with next := n, count := c }, fin, k⟩)
    else
      some (Except.ok ⟨t, true, 0⟩)
  else
    some (Except.ok ⟨t, false, 0⟩)

/-- Drive one timer through a sequence of tick times, stopping — as the
scheduler's reaping guarantees — as soon as a tick returns finished.
Returns the final timer, the total invocation count, and the finished flag. -/
def runTicks (fuel : Nat) : Timer → List Int → Option (Timer × Nat × Bool)
  | t, [] => some (t, 0, false)
  | t, now :: rest =>
    match t.update now fuel with
    | none => none
    | some r =>
      if r.finished then some (r.t, r.fires, true)
      else (runTicks fuel r.t rest).map (fun p => (p.1, r.fires + p.2.1, p.2.2))

/-- Scheduler state: `ids` counter, `timers` map (association list), and the
`remove` list of ids pending removal.  Thread/mutex members and the `delay`
and `stopped` fields only serve the background loop, which is not modelled. -/
structure Manager where
  ids : Nat
  timers : List (Nat × Timer)
  remove : List Nat
deriving Repr, DecidableEq

/-- `manager::manager()`: `ids(0)`, empty containers. -/
def Manager.init : Manager :=
  { ids := 0, timers := [], remove := [] }

/-- `manager::clear()`: `ids = 0; timers.clear();` — `remove` is NOT cleared. -/
def Manager.clear (m : Manager) : Manager :=
  { m with ids := 0, timers := [] }

/-- Key lookup injected by `timers.find(id)`. -/
def findTimer (timers : List (Nat × Timer)) (id : Nat) : Option (Nat × Timer) :=
  timers.find? (fun p => p.1 == id)

/-- `manager::get_id()`'s `do { id = ids++; ... } while (true)` loop, with
fuel.  `ids++` wraps at `2^64` (unsigned long long).  Returns the minted id
and the new counter value. -/
def get_id_loop (timers : List (Nat × Timer)) : Nat → Nat → Option (Nat × Nat)
  | 0, _ => none
  | fuel + 1, ids =>
    let id := ids
    let ids2 := (ids + 1) % 2 ^ 64
    if id = invalid_timer then
      get_id_loop timers fuel ids2
    else if (findTimer timers id).isSome then
      get_id_loop timers fuel ids2
    else
      some (id, ids2)

/-- `manager::timeout(handler, dur)`: mint an id, store a timer with
`count = -1`.  `now` is the registration-time `clock::now()` used by the
timer constructor. -/
def Manager.timeout (m : Manager) (handler : Bool) (dur : Int) (now : Int) (fuel : Nat) :
    Option (Manager × Nat) :=
  match get_id_loop m.timers fuel m.ids with
  | none => none
  | some (id, ids2) =>
    some ({ m with ids := ids2, timers := m.timers ++ [(id, mkTimer handler dur (-1) now)] }, id)

/-- `manager::interval(handler, dur)`: mint an id, store a timer with `count = 0`. -/
def Manager.interval (m : Manager) (handler : Bool) (dur : Int) (now : Int) (fuel : Nat) :
    Option (Manager × Nat) :=
  match get_id_loop m.timers fuel m.ids with
  | none => none
  | some (id, ids2) =>
    some ({ m with ids := ids2, timers := m.timers ++ [(id, mkTimer handler dur 0 now)] }, id)

/-- `manager::repeat(handler, dur, count)`: reject `count <= 0` with
`invalid_timer`, delegate `count == 1` to `timeout`, otherwise store a timer
with `count + 1`. -/
def Manager.repeat (m : Manager) (handler : Bool) (dur : Int) (count : Int) (now : Int)
    (fuel : Nat) : Option (Manager × Nat) :=
  if count ≤ 0 then
    some (m, invalid_timer)
  else if count = 1 then
    m.timeout handler dur now fuel
  else
    match get_id_loop m.timers fuel m.ids with
    | none => none
    | some (id, ids2) =>
      some ({ m with ids := ids2,
                     timers := m.timers ++ [(id, mkTimer handler dur (count + 1) now)] }, id)

/-- `manager::cancel(id)`: push onto `remove` unless `id` is the sentinel. -/
def Manager.cancel (m : Manager) (id : Nat) : Manager :=
  if id ≠ invalid_timer then { m with remove := m.remove ++ [id] } else m

/-- One step of the removal phase of `manager::update`:
`it = timers.find(r); if (it != end) { delete; timers.erase(it); }`.
Erases the first entry with key `r`, or leaves the list unchanged. -/
def eraseId : List (Nat × Timer) → Nat → List (Nat × Timer)
  | [], _ => []
  | p :: ps, r => if p.1 = r then ps else p :: eraseId ps r

/-- The tick phase of `manager::update`: call `update()` on every stored
timer in order, pushing ids of finished timers.  Returns the ticked map and
the list of finished ids (in iteration order); `none` if some timer's
catch-up loop exhausted the fuel. -/
def tickAll (now : Int) (fuel : Nat) : List (Nat × Timer) → Option (List (Nat × Timer) × List Nat)
  | [] => some ([], [])
  | (id, t) :: rest =>
    match t.update now fuel with
    | none => none
    | some r =>
      (tickAll now fuel rest).map
        (fun p => ((id, r.t) :: p.1, (if r.finished then [id] else []) ++ p.2))

/-- `manager::update()`: tick every timer, collecting finished ids after the
already-pending `remove` entries, then erase each collected id and clear
`remove`. -/
def Manager.update (m : Manager) (now : Int) (fuel : Nat) : Option Manager :=
  match tickAll now fuel m.timers with
  | none => none
  | some (ts, fin) =>
    some { m with timers := (m.remove ++ fin).foldl eraseId ts, remove := [] }

/-! ### Loop lemmas -/

/-- A loop whose entry condition fails returns immediately, at any fuel. -/
theorem loopInfinite_notDue {now P next : Int} (h : ¬ next ≤ now) :
    ∀ fuel, loopInfinite now P fuel next = some (next, 0) := by
  intro fuel
  cases fuel <;> simp [loopInfinite, h]

/-- A bounded loop whose entry condition fails returns immediately. -/
theorem loopBounded_notDue {now P next c : Int} (h : ¬ next ≤ now) :
    ∀ fuel, loopBounded now P fuel next c = some (next, c, 0, false) := by
  intro fuel
  cases fuel <;> simp [loopBounded, h]

/-- Shape of a completed infinite-branch catch-up loop: `next` advanced by
one period per invocation, the final `next` is past `now`, at least one
invocation happens when the timer was due, and the last invocation's
boundary was not past `now`. -/
theorem loopInfinite_some {now P : Int} :
    ∀ {fuel : Nat} {next n : Int} {k : Nat},
      loopInfinite now P fuel next = some (n, k) →
      n = next + (k : Int) * P ∧ now < n ∧ (next ≤ now → 1 ≤ k) ∧ (1 ≤ k → n - P ≤ now) := by
  intro fuel
  induction fuel with
  | zero =>
    intro next n k h
    by_cases hdue : next ≤ now
    · simp [loopInfinite, hdue] at h
    · simp [loopInfinite, hdue] at h
      obtain ⟨rfl, rfl⟩ := h
      refine ⟨by ring, by omega, by omega, by omega⟩
  | succ fuel ih =>
    intro next n k h
    by_cases hdue : next ≤ now
    · simp only [loopInfinite, if_pos hdue, Option.map_eq_some'] at h
      obtain ⟨⟨n0, k0⟩, hrec, heq⟩ := h
      simp only [Prod.mk.injEq] at heq
      obtain ⟨rfl, rfl⟩ := heq
      obtain ⟨h1, h2, _h3, h4⟩ := ih hrec
      refine ⟨by push_cast; linarith, h2, fun _ => by omega, fun _ => ?_⟩
      rcases Nat.eq_zero_or_pos k0 with hk0 | hk0
      · subst hk0; simp at h1; omega
      · exact h4 hk0
    · simp [loopInfinite, hdue] at h
      obtain ⟨rfl, rfl⟩ := h
      refine ⟨by ring, by omega, by omega, by omega⟩

/-- With a zero period, a due infinite-branch loop never completes. -/
theorem loopInfinite_zero_none {now : Int} :
    ∀ (fuel : Nat) {next : Int}, next ≤ now → loopInfinite now 0 fuel next = none := by
  intro fuel
  induction fuel with
  | zero => intro next hdue; simp [loopInfinite, hdue]
  | succ fuel ih =>
    intro next hdue
    simp only [loopInfinite, if_pos hdue, add_zero]
    rw [ih hdue]
    rfl

/-- With a positive period, the infinite-branch loop completes given enough
fuel. -/
theorem loopInfinite_total {now P : Int} (hP : 0 < P) :
    ∀ (fuel : Nat) (next : Int), (now - next).toNat < fuel →
      (loopInfinite now P fuel next).isSome := by
  intro fuel
  induction fuel with
  | zero => intro next h; omega
  | succ fuel ih =>
    intro next h
    by_cases hdue : next ≤ now
    · rw [show loopInfinite now P (fuel + 1) next
          = (loopInfinite now P fuel (next + P)).map (fun p => (p.1, p.2 + 1)) by
        simp [loopInfinite, hdue]]
      by_cases hdue2 : next + P ≤ now
      · obtain ⟨p, hp⟩ := Option.isSome_iff_exists.mp (ih (next + P) (by omega))
        rw [hp]
        rfl
      · rw [loopInfinite_notDue hdue2]
        rfl
    · simp [loopInfinite, hdue]

/-- Shape of a completed bounded-branch catch-up loop: each invocation
advances `next` by one period and decrements `count` by one; it returns
`true` (finished) exactly when `count` reached `1`, and otherwise stops only
once `next` is past `now` with `count` still at least `2`. -/
theorem loopBounded_some {now P : Int} :
    ∀ {fuel : Nat} {next c n c2 : Int} {k : Nat} {fin : Bool},
      2 ≤ c → loopBounded now P fuel next c = some (n, c2, k, fin) →
      (k : Int) = c - c2 ∧ n = next + (k : Int) * P ∧
      (fin = true → c2 = 1) ∧ (fin = false → 2 ≤ c2 ∧ now < n) := by
  intro fuel
  induction fuel with
  | zero =>
    intro next c n c2 k fin hc h
    by_cases hdue : next ≤ now
    · simp [loopBounded, hdue] at h
    · simp [loopBounded, hdue] at h
      obtain ⟨rfl, rfl, rfl, rfl⟩ := h
      refine ⟨by omega, by ring, by simp, fun _ => ⟨hc, by omega⟩⟩
  | succ fuel ih =>
    intro next c n c2 k fin hc h
    by_cases hdue : next ≤ now
    · by_cases h2 : c - 1 = 1
      · simp only [loopBounded, if_pos hdue, if_pos h2, Option.some_inj] at h
        obtain ⟨rfl, rfl, rfl, rfl⟩ := h
        refine ⟨by omega, by push_cast; ring, fun _ => by omega, by simp⟩
      · simp only [loopBounded, if_pos hdue, if_neg h2, Option.map_eq_some'] at h
        obtain ⟨⟨n0, c0, k0, fin0⟩, hrec, heq⟩ := h
        simp only [Prod.mk.injEq] at heq
        obtain ⟨rfl, rfl, rfl, rfl⟩ := heq
        obtain ⟨i1, i2, i3, i4⟩ := ih (by omega) hrec
        refine ⟨by push_cast; omega, by push_cast; linarith, i3, i4⟩
    · simp [loopBounded, hdue] at h
      obtain ⟨rfl, rfl, rfl, rfl⟩ := h
      refine ⟨by omega, by ring, by simp, fun _ => ⟨hc, by omega⟩⟩

/-- With a positive period and at least `count - 2` whole periods elapsed
past `next`, the bounded loop runs down to `count = 1`: it fires exactly
`count - 1` more times, advances `next` accordingly, and returns finished. -/
theorem loopBounded_finish {now P : Int} (hP : 0 < P) :
    ∀ {fuel : Nat} {next c : Int}, 2 ≤ c →
      next + (c - 2) * P ≤ now → (c - 1).toNat ≤ fuel →
      loopBounded now P fuel next c = some (next + (c - 1) * P, 1, (c - 1).toNat, true) := by
  intro fuel
  induction fuel with
  | zero => intro next c hc _ hfuel; omega
  | succ fuel ih =>
    intro next c hc helapsed hfuel
    have hdue : next ≤ now := by nlinarith
    by_cases h2 : c - 1 = 1
    · have hc2 : c = 2 := by omega
      subst hc2
      simp only [loopBounded, if_pos hdue, if_pos h2]
      refine congrArg some ?_
      norm_num
    · have hc3 : 3 ≤ c := by omega
      simp only [loopBounded, if_pos hdue, if_neg h2]
      rw [ih (by omega) (by nlinarith) (by omega)]
      simp only [Option.map_some']
      refine congrArg some ?_
      have h1 : next + P + (c - 1 - 1) * P = next + (c - 1) * P := by ring
      have h2 : (c - 1 - 1).toNat + 1 = (c - 1).toNat := by omega
      rw [h1, h2]

/-- With a positive period, the bounded loop completes given enough fuel. -/
theorem loopBounded_total {now P : Int} (hP : 0 < P) :
    ∀ (fuel : Nat) (next c : Int), (now - next).toNat < fuel →
      (loopBounded now P fuel next c).isSome := by
  intro fuel
  induction fuel with
  | zero => intro next c h; omega
  | succ fuel ih =>
    intro next c h
    by_cases hdue : next ≤ now
    · by_cases h2 : c - 1 = 1
      · simp [loopBounded, hdue, h2]
      · rw [show loopBounded now P (fuel + 1) next c
            = (loopBounded now P fuel (next + P) (c - 1)).map
                (fun p => (p.1, p.2.1, p.2.2.1 + 1, p.2.2.2)) by
          simp [loopBounded, hdue, h2]]
        by_cases hdue2 : next + P ≤ now
        · obtain ⟨p, hp⟩ := Option.isSome_iff_exists.mp (ih (next + P) (c - 1) (by omega))
          rw [hp]
          rfl
        · rw [loopBounded_notDue hdue2]
          rfl
    · simp [loopBounded, hdue]

/-! ### `timer::update` lemmas -/

/-- An empty handler: tick reports finished with no side effect. -/
theorem update_noHandler {t : Timer} {now : Int} (hh : t.hasHandler = false) (fuel : Nat) :
    t.update now fuel = some ⟨t, true, 0⟩ := by
  simp [Timer.update, hh]

/-- A tick on a timer that is not yet due does nothing. -/
theorem update_notDue {t : Timer} {now : Int} (hh : t.hasHandler = true)
    (hdue : ¬ t.next ≤ now) (fuel : Nat) :
    t.update now fuel = some ⟨t, false, 0⟩ := by
  simp [Timer.update, hh, hdue]

/-- A due one-shot tick (`count < 0`): fire once, advance once, finished. -/
theorem update_oneShot {t : Timer} {now : Int} (hh : t.hasHandler = true)
    (hc : t.count < 0) (hdue : t.next ≤ now) (fuel : Nat) :
    t.update now fuel = some ⟨t.execute, true, 1⟩ := by
  simp [Timer.update, hh, hdue, hc]

/-- A due tick in the exhausted state `count == 1`: finished, no side effect. -/
theorem update_countOne {t : Timer} {now : Int} (hh : t.hasHandler = true)
    (hc : t.count = 1) (hdue : t.next ≤ now) (fuel : Nat) :
    t.update now fuel = some ⟨t, true, 0⟩ := by
  simp [Timer.update, hh, hdue, hc]

/-- Invariant of a completed tick on an infinite-recurring timer
(`count == 0`): never finished, and `next` advances one period per
invocation, ending at the first boundary strictly past `now`. -/
theorem update_infinite_inv {t : Timer} {now : Int} {fuel : Nat} {r : TickResult}
    (hh : t.hasHandler = true) (hc : t.count = 0)
    (h : t.update now fuel = some r) :
    r.finished = false ∧
    r.t = { t with next := t.next + (r.fires : Int) * t.interval } ∧
    now < r.t.next ∧
    (t.next ≤ now → 1 ≤ r.fires) ∧ (1 ≤ r.fires → r.t.next - t.interval ≤ now) := by
  by_cases hdue : t.next ≤ now
  · rw [show t.update now fuel = (loopInfinite now t.interval fuel t.next).map
        (fun p => ⟨{ t with next := p.1 }, false, p.2⟩) by
      simp [Timer.update, hh, hdue, hc]] at h
    rw [Option.map_eq_some'] at h
    obtain ⟨⟨n, k⟩, hl, heq⟩ := h
    obtain ⟨h1, h2, h3, h4⟩ := loopInfinite_some hl
    subst heq
    exact ⟨rfl, by rw [← h1], by simpa using h2, h3, fun hk => by simpa using h4 hk⟩
  · rw [update_notDue hh hdue fuel] at h
    obtain rfl := Option.some.inj h
    refine ⟨rfl, by simp, by simpa using hdue, fun hd => absurd hd hdue, by simp⟩

/-- Invariant of a completed tick on a bounded-recurring timer
(`count >= 2`): each invocation advances `next` one period and decrements
`count`; finished exactly when `count` hit `1`; otherwise `count` is still
at least `2` and `next` is past `now`. -/
theorem update_bounded_inv {t : Timer} {now : Int} {fuel : Nat} {r : TickResult}
    (hh : t.hasHandler = true) (hc : 2 ≤ t.count)
    (h : t.update now fuel = some r) :
    (r.fires : Int) = t.count - r.t.count ∧
    r.t.next = t.next + (r.fires : Int) * t.interval ∧
    r.t.hasHandler = true ∧ r.t.interval = t.interval ∧
    (r.finished = true → r.t.count = 1) ∧
    (r.finished = false → 2 ≤ r.t.count ∧ now < r.t.next) := by
  have hc0 : ¬ t.count < 0 := by omega
  have hc1 : ¬ t.count = 0 := by omega
  have hc2 : t.count > 1 := by omega
  by_cases hdue : t.next ≤ now
  · rw [show t.update now fuel = (loopBounded now t.interval fuel t.next t.count).map
        (fun p => ⟨{ t with next := p.1, count := p.2.1 }, p.2.2.2, p.2.2.1⟩) by
      simp [Timer.update, hh, hdue, hc0, hc1, hc2]] at h
    rw [Option.map_eq_some'] at h
    obtain ⟨⟨n, c2, k, fin⟩, hl, heq⟩ := h
    obtain ⟨h1, h2, h3, h4⟩ := loopBounded_some hc hl
    subst heq
    exact ⟨h1, by simpa using h2, hh, rfl, h3, h4⟩
  · rw [update_notDue hh hdue fuel] at h
    obtain rfl := Option.some.inj h
    exact ⟨by simp, by simp, hh, rfl, by simp, fun _ => ⟨hc, by simpa using hdue⟩⟩

/-- A tick that does not report finished leaves a live handler and a `next`
strictly past `now` — the key fact behind catch-up idempotence. -/
theorem update_notFinished {t : Timer} {now : Int} {fuel : Nat} {r : TickResult}
    (h : t.update now fuel = some r) (hfin : r.finished = false) :
    r.t.hasHandler = true ∧ now < r.t.next := by
  by_cases hh : t.hasHandler = true
  · by_cases hdue : t.next ≤ now
    · rcases lt_trichotomy t.count 0 with hneg | hzero | hpos
      · rw [update_oneShot hh hneg hdue fuel] at h
        obtain rfl := Option.some.inj h
        simp at hfin
      · obtain ⟨_, h2, h3, _⟩ := update_infinite_inv hh hzero h
        exact ⟨by rw [h2]; exact hh, h3⟩
      · by_cases hone : t.count = 1
        · rw [update_countOne hh hone hdue fuel] at h
          obtain rfl := Option.some.inj h
          simp at hfin
        · have hge : 2 ≤ t.count := by omega
          obtain ⟨_, _, h3, _, _, h6⟩ := update_bounded_inv hh hge h
          exact ⟨h3, (h6 hfin).2⟩
    · rw [update_notDue hh hdue fuel] at h
      obtain rfl := Option.some.inj h
      exact ⟨hh, by simpa using hdue⟩
  · rw [update_noHandler (Bool.not_eq_true _ ▸ hh : t.hasHandler = false) fuel] at h
    obtain rfl := Option.some.inj h
    simp at hfin

/-! ### Removal-phase bookkeeping lemmas -/

theorem eraseId_sublist (ts : List (Nat × Timer)) (r : Nat) :
    List.Sublist (eraseId ts r) ts := by
  induction ts with
  | nil => simp [eraseId]
  | cons p ps ih =>
    by_cases hp : p.1 = r
    · simp only [eraseId, if_pos hp]
      exact (List.Sublist.refl ps).cons p
    · simp only [eraseId, if_neg hp]
      exact ih.cons₂ p

theorem keys_eraseId_sublist (ts : List (Nat × Timer)) (r : Nat) :
    List.Sublist ((eraseId ts r).map Prod.fst) (ts.map Prod.fst) :=
  (eraseId_sublist ts r).map Prod.fst

theorem not_mem_keys_eraseId {ts : List (Nat × Timer)} {id : Nat}
    (h : id ∉ ts.map Prod.fst) (r : Nat) : id ∉ (eraseId ts r).map Prod.fst :=
  fun hmem => h ((keys_eraseId_sublist ts r).subset hmem)

theorem nodup_keys_eraseId {ts : List (Nat × Timer)}
    (h : (ts.map Prod.fst).Nodup) (r : Nat) : ((eraseId ts r).map Prod.fst).Nodup :=
  h.sublist (keys_eraseId_sublist ts r)

/-- `timers.find(r)` failing makes the erase step a no-op. -/
theorem eraseId_noop {ts : List (Nat × Timer)} {r : Nat}
    (h : r ∉ ts.map Prod.fst) : eraseId ts r = ts := by
  induction ts with
  | nil => rfl
  | cons p ps ih =>
    simp only [List.map_cons, List.mem_cons] at h
    push_neg at h
    have hp : p.1 ≠ r := fun hp => h.1 hp.symm
    simp only [eraseId, if_neg hp]
    rw [ih h.2]

/-- With unique keys, erasing a key removes it entirely. -/
theorem keys_eraseId_self {ts : List (Nat × Timer)}
    (h : (ts.map Prod.fst).Nodup) (r : Nat) : r ∉ (eraseId ts r).map Prod.fst := by
  induction ts with
  | nil => simp [eraseId]
  | cons p ps ih =>
    simp only [List.map_cons, List.nodup_cons] at h
    by_cases hp : p.1 = r
    · simp only [eraseId, if_pos hp]
      exact fun hmem => h.1 (hp ▸ hmem)
    · simp only [eraseId, if_neg hp, List.map_cons, List.mem_cons]
      rintro (rfl | hmem)
      · exact hp rfl
      · exact ih h.2 hmem

/-- Entries with a different key survive an erase step. -/
theorem mem_eraseId_of_ne {ts : List (Nat × Timer)} {a : Nat} {u : Timer} {r : Nat}
    (hmem : (a, u) ∈ ts) (hne : a ≠ r) : (a, u) ∈ eraseId ts r := by
  induction ts with
  | nil => simp at hmem
  | cons p ps ih =>
    rcases List.mem_cons.mp hmem with rfl | hmem2
    · simp only [eraseId, if_neg (by simpa using hne)]
      exact List.mem_cons_self _ _
    · by_cases hp : p.1 = r
      · simp only [eraseId, if_pos hp]
        exact hmem2
      · simp only [eraseId, if_neg hp]
        exact List.mem_cons_of_mem _ (ih hmem2)

theorem foldl_eraseId_sublist (l : List Nat) :
    ∀ (ts : List (Nat × Timer)), List.Sublist (l.foldl eraseId ts) ts := by
  induction l with
  | nil => intro ts; exact List.Sublist.refl ts
  | cons r l ih =>
    intro ts
    exact (ih (eraseId ts r)).trans (eraseId_sublist ts r)

theorem not_mem_keys_foldl {id : Nat} (l : List Nat) {ts : List (Nat × Timer)}
    (h : id ∉ ts.map Prod.fst) : id ∉ (l.foldl eraseId ts).map Prod.fst :=
  fun hmem => h (((foldl_eraseId_sublist l ts).map Prod.fst).subset hmem)

theorem nodup_keys_foldl (l : List Nat) {ts : List (Nat × Timer)}
    (h : (ts.map Prod.fst).Nodup) : ((l.foldl eraseId ts).map Prod.fst).Nodup :=
  h.sublist ((foldl_eraseId_sublist l ts).map Prod.fst)

/-- With unique keys, any key in the removal list is gone after the
removal phase. -/
theorem foldl_eraseId_removes {id : Nat} :
    ∀ (l : List Nat) (ts : List (Nat × Timer)), (ts.map Prod.fst).Nodup → id ∈ l →
      id ∉ (l.foldl eraseId ts).map Prod.fst := by
  intro l
  induction l with
  | nil => intro ts _ h; simp at h
  | cons r l ih =>
    intro ts hnodup hmem
    rcases List.mem_cons.mp hmem with rfl | hmem2
    · exact not_mem_keys_foldl l (keys_eraseId_self hnodup id)
    · exact ih (eraseId ts r) (nodup_keys_eraseId hnodup r) hmem2

/-- Entries whose key is not in the removal list survive the removal phase. -/
theorem mem_foldl_eraseId {a : Nat} {u : Timer} :
    ∀ (l : List Nat) (ts : List (Nat × Timer)), (a, u) ∈ ts → a ∉ l →
      (a, u) ∈ l.foldl eraseId ts := by
  intro l
  induction l with
  | nil => intro ts hmem _; exact hmem
  | cons r l ih =>
    intro ts hmem hnot
    simp only [List.mem_cons] at hnot
    push_neg at hnot
    exact ih (eraseId ts r) (mem_eraseId_of_ne hmem hnot.1) hnot.2

/-! ### Tick-phase lemmas -/

/-- The tick phase preserves the key sequence of the timer map. -/
theorem tickAll_keys {now : Int} {fuel : Nat} :
    ∀ {ts ts' : List (Nat × Timer)} {fin : List Nat},
      tickAll now fuel ts = some (ts', fin) → ts'.map Prod.fst = ts.map Prod.fst := by
  intro ts
  induction ts with
  | nil =>
    intro ts' fin h
    simp only [tickAll, Option.some_inj, Prod.mk.injEq] at h
    obtain ⟨rfl, rfl⟩ := h
    rfl
  | cons p rest ih =>
    intro ts' fin h
    obtain ⟨id0, t0⟩ := p
    simp only [tickAll] at h
    cases hu : t0.update now fuel with
    | none => rw [hu] at h; simp at h
    | some r =>
      rw [hu] at h
      simp only [Option.map_eq_some'] at h
      obtain ⟨⟨ts1, fin1⟩, hrec, heq⟩ := h
      simp only [Prod.mk.injEq] at heq
      obtain ⟨rfl, rfl⟩ := heq
      simp only [List.map_cons]
      rw [ih hrec]

/-- Every id collected by the tick phase is a stored key. -/
theorem tickAll_fin_subset {now : Int} {fuel : Nat} :
    ∀ {ts ts' : List (Nat × Timer)} {fin : List Nat},
      tickAll now fuel ts = some (ts', fin) → ∀ x ∈ fin, x ∈ ts.map Prod.fst := by
  intro ts
  induction ts with
  | nil =>
    intro ts' fin h x hx
    simp only [tickAll, Option.some_inj, Prod.mk.injEq] at h
    obtain ⟨rfl, rfl⟩ := h
    simp at hx
  | cons p rest ih =>
    intro ts' fin h x hx
    obtain ⟨id0, t0⟩ := p
    simp only [tickAll] at h
    cases hu : t0.update now fuel with
    | none => rw [hu] at h; simp at h
    | some r =>
      rw [hu] at h
      simp only [Option.map_eq_some'] at h
      obtain ⟨⟨ts1, fin1⟩, hrec, heq⟩ := h
      simp only [Prod.mk.injEq] at heq
      obtain ⟨rfl, rfl⟩ := heq
      simp only [List.map_cons, List.mem_cons]
      rcases List.mem_append.mp hx with h1 | h2
      · left
        rcases r.finished with _ | _ <;> simp_all
      · exact Or.inr (ih hrec x h2)

/-- What the tick phase does to one stored entry, given unique keys: its
timer is ticked once, the result replaces it, and its id is collected
exactly when that tick reported finished. -/
theorem tickAll_mem {now : Int} {fuel : Nat} :
    ∀ {ts ts' : List (Nat × Timer)} {fin : List Nat} {id : Nat} {t : Timer},
      (ts.map Prod.fst).Nodup → (id, t) ∈ ts →
      tickAll now fuel ts = some (ts', fin) →
      ∃ r, t.update now fuel = some r ∧ (id, r.t) ∈ ts' ∧ (id ∈ fin ↔ r.finished = true) := by
  intro ts
  induction ts with
  | nil => intro ts' fin id t _ hmem _; simp at hmem
  | cons p rest ih =>
    intro ts' fin id t hnodup hmem h
    obtain ⟨id0, t0⟩ := p
    simp only [tickAll] at h
    cases hu : t0.update now fuel with
    | none => rw [hu] at h; simp at h
    | some r0 =>
      rw [hu] at h
      simp only [Option.map_eq_some'] at h
      obtain ⟨⟨ts1, fin1⟩, hrec, heq⟩ := h
      simp only [Prod.mk.injEq] at heq
      obtain ⟨rfl, rfl⟩ := heq
      simp only [List.map_cons, List.nodup_cons] at hnodup
      rcases List.mem_cons.mp hmem with hhead | htail
      · simp only [Prod.mk.injEq] at hhead
        obtain ⟨rfl, rfl⟩ := hhead
        refine ⟨r0, hu, List.mem_cons_self _ _, ?_⟩
        constructor
        · intro hfin
          rcases List.mem_append.mp hfin with h1 | h2
          · rcases hf : r0.finished with _ | _ <;> simp [hf] at h1 ⊢
          · exact absurd (tickAll_fin_subset hrec id h2) hnodup.1
        · intro hfin
          simp [hfin]
      · obtain ⟨r, h1, h2, h3⟩ := ih hnodup.2 htail hrec
        refine ⟨r, h1, List.mem_cons_of_mem _ h2, ?_⟩
        have hne : id ≠ id0 := by
          intro hid
          exact hnodup.1 (hid ▸ List.mem_map_of_mem Prod.fst htail)
        rw [← h3]
        constructor
        · intro hfin
          rcases List.mem_append.mp hfin with ha | hb
          · rcases hf : r0.finished with _ | _ <;> simp [hf] at ha
            exact absurd ha hne
          · exact hb
        · intro hfin
          exact List.mem_append.mpr (Or.inr hfin)

/-! ### Multi-tick invariant for bounded timers -/

/-- Invariant of a bounded-recurring timer (`count >= 2`) driven through any
sequence of tick times: total invocations equal the drop in `count`, `next`
advances one period per invocation, the run ends finished exactly when
`count` hit `1`, and a run that never finished left `next` strictly past the
final tick time. -/
theorem runTicks_bounded {fuel : Nat} :
    ∀ {nows : List Int} {t t2 : Timer} {K : Nat} {fin : Bool},
      t.hasHandler = true → 2 ≤ t.count →
      runTicks fuel t nows = some (t2, K, fin) →
      (K : Int) = t.count - t2.count ∧ t2.next = t.next + (K : Int) * t.interval ∧
      t2.hasHandler = true ∧ t2.interval = t.interval ∧
      (fin = true → t2.count = 1) ∧
      (fin = false → 2 ≤ t2.count ∧ ∀ T ∈ nows.getLast?, T < t2.next) := by
  intro nows
  induction nows with
  | nil =>
    intro t t2 K fin hh hc h
    simp only [runTicks, Option.some_inj, Prod.mk.injEq] at h
    obtain ⟨rfl, rfl, rfl⟩ := h
    refine ⟨by omega, by ring, hh, rfl, by simp, fun _ => ⟨hc, by simp⟩⟩
  | cons now rest ih =>
    intro t t2 K fin hh hc h
    simp only [runTicks] at h
    cases hu : t.update now fuel with
    | none => rw [hu] at h; simp at h
    | some r =>
      rw [hu] at h
      dsimp only at h
      obtain ⟨i1, i2, i3, i4, i5, i6⟩ := update_bounded_inv hh hc hu
      by_cases hf : r.finished
      · rw [if_pos hf] at h
        simp only [Option.some_inj, Prod.mk.injEq] at h
        obtain ⟨rfl, rfl, rfl⟩ := h
        exact ⟨i1, i2, i3, i4, fun _ => i5 hf, by simp⟩
      · rw [if_neg hf] at h
        simp only [Option.map_eq_some'] at h
        obtain ⟨⟨t2x, Kx, finx⟩, hrec, heq⟩ := h
        simp only [Prod.mk.injEq] at heq
        obtain ⟨rfl, rfl, rfl⟩ := heq
        obtain ⟨hcnt, hnow⟩ := i6 (Bool.not_eq_true _ ▸ hf)
        obtain ⟨j1, j2, j3, j4, j5, j6⟩ := ih i3 hcnt hrec
        refine ⟨by push_cast; omega, ?_, j3, by rw [j4, i4], j5, ?_⟩
        · rw [j2, i2, i4]
          push_cast
          ring
        · intro hfx
          obtain ⟨jc, jlast⟩ := j6 hfx
          refine ⟨jc, ?_⟩
          cases rest with
          | nil =>
            simp only [runTicks, Option.some_inj, Prod.mk.injEq] at hrec
            obtain ⟨rfl, rfl, rfl⟩ := hrec
            intro T hT
            simp only [List.getLast?_singleton, Option.mem_def, Option.some_inj] at hT
            subst hT
            exact hnow
          | cons b l =>
            intro T hT
            exact jlast T (by simpa using hT)

/-! ### Claim theorems -/

/-- C1: a bounded-recurring registration with period `P` and count `N ≥ 2`
is stored with `count = N + 1` and, across any sequence of ticks, fires at
most `N` times; the tick performing the `N`-th firing returns finished; a
single tick at or past the `N`-th period boundary catches up all `N`
firings in one pass and returns finished; and any run whose final tick is
at or past that boundary has fired exactly `N` times by its end. -/
theorem C1_bounded_repeat_exact (N : Nat) (P next0 : Int) (fuel : Nat)
    (hN : 2 ≤ N) (hP : 0 < P) :
    (∀ nows t2 K fin,
       runTicks fuel ⟨true, next0, P, (N : Int) + 1⟩ nows = some (t2, K, fin) →
       K ≤ N ∧ (fin = true → K = N)) ∧
    (∀ now, next0 + ((N : Int) - 1) * P ≤ now → N ≤ fuel →
       Timer.update ⟨true, next0, P, (N : Int) + 1⟩ now fuel
         = some ⟨⟨true, next0 + (N : Int) * P, P, 1⟩, true, N⟩) ∧
    (∀ nows T t2 K fin,
       runTicks fuel ⟨true, next0, P, (N : Int) + 1⟩ nows = some (t2, K, fin) →
       nows.getLast? = some T → next0 + ((N : Int) - 1) * P ≤ T →
       K = N ∧ fin = true) := by
  have hc : 2 ≤ (⟨true, next0, P, (N : Int) + 1⟩ : Timer).count := by
    show 2 ≤ (N : Int) + 1
    omega
  refine ⟨?_, ?_, ?_⟩
  · intro nows t2 K fin h
    obtain ⟨j1, _, _, _, j5, j6⟩ := runTicks_bounded rfl hc h
    constructor
    · rcases hf : fin with _ | _
      · have := (j6 hf).1
        simp only at j1
        omega
      · have := j5 hf
        simp only at j1
        omega
    · intro hf
      have := j5 hf
      simp only at j1
      omega
  · intro now helapsed hfuel
    have hdue : next0 ≤ now := by nlinarith [Int.natCast_pos.mpr (by omega : 0 < N)]
    have h1 : ¬ ((N : Int) + 1 < 0) := by omega
    have h2 : ¬ ((N : Int) + 1 = 0) := by omega
    have h3 : (N : Int) + 1 > 1 := by omega
    have hloop := @loopBounded_finish now P hP fuel next0 ((N : Int) + 1)
      (by omega) (by linarith [helapsed]) (by omega)
    rw [show Timer.update ⟨true, next0, P, (N : Int) + 1⟩ now fuel
        = (loopBounded now P fuel next0 ((N : Int) + 1)).map
            (fun p => ⟨⟨true, p.1, P, p.2.1⟩, p.2.2.2, p.2.2.1⟩) by
      simp [Timer.update, hdue, h1, h2, h3]]
    rw [hloop]
    simp only [Option.map_some']
    refine congrArg some ?_
    have e1 : (N : Int) + 1 - 1 = (N : Int) := by ring
    rw [e1]
    have e2 : ((N : Int)).toNat = N := by omega
    rw [e2]
  · intro nows T t2 K fin h hlast hT
    obtain ⟨j1, j2, _, _, j5, j6⟩ := runTicks_bounded rfl hc h
    rcases hf : fin with _ | _
    · obtain ⟨jc, jlast⟩ := j6 hf
      have hTnext : T < t2.next := jlast T (by simp [hlast])
      simp only at j1 j2
      have hK : (K : Int) ≤ (N : Int) - 1 := by omega
      have : (K : Int) * P ≤ ((N : Int) - 1) * P :=
        mul_le_mul_of_nonneg_right hK (le_of_lt hP)
      have : t2.next ≤ next0 + ((N : Int) - 1) * P := by
        rw [j2]; linarith
      omega
    · have := j5 hf
      simp only at j1
      refine ⟨by omega, rfl⟩

/-- Witness for C1 at `N = 2`, `P = 5`, `next0 = 5`, a single batched tick
at `now = 20`. -/
theorem C1_bounded_repeat_exact_witness :
    Timer.update ⟨true, 5, 5, (2 : Int) + 1⟩ 20 10
      = some ⟨⟨true, 5 + (2 : Int) * 5, 5, 1⟩, true, 2⟩ := by
  have h := (C1_bounded_repeat_exact 2 5 5 10 (by norm_num) (by norm_num)).2.1 20
    (by norm_num) (by norm_num)
  exact_mod_cast h

/-- C5: catch-up idempotence.  If a tick completes without reporting
finished, a second tick at the same `now` fires nothing and changes
nothing; if it reported finished the scheduler reaps it before any further
tick (see the C2/C6 removal theorems). -/
theorem C5_tick_idempotent {t : Timer} {now : Int} {fuel : Nat} {t1 : Timer}
    {fin : Bool} {k : Nat} (h : t.update now fuel = some ⟨t1, fin, k⟩) :
    fin = true ∨ ∀ fuel2, t1.update now fuel2 = some ⟨t1, false, 0⟩ := by
  rcases hf : fin with _ | _
  · right
    intro fuel2
    obtain ⟨hh1, hnow⟩ := update_notFinished h (by simp [hf])
    exact update_notDue hh1 (by omega) fuel2
  · left
    rfl

/-- Witness for C5: an infinite-recurring timer ticked twice at `now = 12`. -/
theorem C5_tick_idempotent_witness :
    Timer.update ⟨true, 15, 5, 0⟩ 12 10 = some ⟨⟨true, 15, 5, 0⟩, false, 0⟩ := by
  have h := @C5_tick_idempotent ⟨true, 0, 5, 0⟩ 12 10 ⟨true, 15, 5, 0⟩ false 3 (by decide)
  rcases h with h | h
  · exact absurd h (by decide)
  · exact h 10

/-- C2: a one-shot registration (`count < 0`) with a non-empty callback,
once due, fires exactly once in a tick — however many multiples of the delay
have elapsed — advances `next` by exactly one period, returns finished; and
the tick pass that saw it finish removes its id from the scheduler's map. -/
theorem C2_oneShot_fires_once :
    (∀ (t : Timer) (now : Int) (fuel : Nat), t.hasHandler = true → t.count < 0 →
       t.next ≤ now →
       t.update now fuel = some ⟨{ t with next := t.next + t.interval }, true, 1⟩) ∧
    (∀ (m : Manager) (id : Nat) (t : Timer) (now : Int) (fuel : Nat) (m2 : Manager),
       (m.timers.map Prod.fst).Nodup → (id, t) ∈ m.timers →
       t.hasHandler = true → t.count < 0 → t.next ≤ now →
       m.update now fuel = some m2 → id ∉ m2.timers.map Prod.fst) := by
  constructor
  · intro t now fuel hh hc hdue
    exact update_oneShot hh hc hdue fuel
  · intro m id t now fuel m2 hnodup hmem hh hc hdue h
    unfold Manager.update at h
    cases htick : tickAll now fuel m.timers with
    | none => rw [htick] at h; simp at h
    | some p =>
      obtain ⟨ts, fin⟩ := p
      rw [htick] at h
      dsimp only at h
      obtain rfl := Option.some.inj h
      obtain ⟨r, hr, _, hiff⟩ := tickAll_mem hnodup hmem htick
      rw [update_oneShot hh hc hdue fuel] at hr
      obtain rfl := Option.some.inj hr
      have hfin : id ∈ fin := hiff.mpr rfl
      have hnodup2 : (ts.map Prod.fst).Nodup := by
        rw [tickAll_keys htick]; exact hnodup
      exact foldl_eraseId_removes (m.remove ++ fin) ts hnodup2
        (List.mem_append.mpr (Or.inr hfin))

/-- Witness for C2: a one-shot timer due long past its delay fires once and
is gone from the map after the pass. -/
theorem C2_oneShot_fires_once_witness :
    0 ∉ (({ ids := 1, timers := [], remove := [] } : Manager)).timers.map Prod.fst := by
  refine (C2_oneShot_fires_once).2
    { ids := 1, timers := [(0, ⟨true, 5, 5, -1⟩)], remove := [] }
    0 ⟨true, 5, 5, -1⟩ 17 3 { ids := 1, timers := [], remove := [] }
    (by decide) (by decide) (by decide) (by decide) (by decide) (by decide)

/-- C3: an infinite-recurring registration (`count == 0`) with a non-empty
callback fires once per elapsed period boundary (ending at the first
boundary strictly past `now`, with the previous boundary not past `now`),
never reports finished, and survives every tick pass in which it was not
explicitly cancelled. -/
theorem C3_infinite_never_finishes :
    (∀ (t : Timer) (now : Int) (fuel : Nat) (r : TickResult),
       t.hasHandler = true → t.count = 0 → t.update now fuel = some r →
       r.finished = false ∧
       r.t = { t with next := t.next + (r.fires : Int) * t.interval } ∧
       now < r.t.next ∧ (t.next ≤ now → 1 ≤ r.fires) ∧
       (1 ≤ r.fires → r.t.next - t.interval ≤ now)) ∧
    (∀ (m : Manager) (id : Nat) (t : Timer) (now : Int) (fuel : Nat) (m2 : Manager),
       (m.timers.map Prod.fst).Nodup → (id, t) ∈ m.timers →
       t.hasHandler = true → t.count = 0 → id ∉ m.remove →
       m.update now fuel = some m2 →
       ∃ t2, (id, t2) ∈ m2.timers ∧ t2.count = 0) := by
  constructor
  · intro t now fuel r hh hc h
    exact update_infinite_inv hh hc h
  · intro m id t now fuel m2 hnodup hmem hh hc hrem h
    unfold Manager.update at h
    cases htick : tickAll now fuel m.timers with
    | none => rw [htick] at h; simp at h
    | some p =>
      obtain ⟨ts, fin⟩ := p
      rw [htick] at h
      dsimp only at h
      obtain rfl := Option.some.inj h
      obtain ⟨r, hr, hmem2, hiff⟩ := tickAll_mem hnodup hmem htick
      obtain ⟨hfin, hshape, _, _, _⟩ := update_infinite_inv hh hc hr
      have hnotfin : id ∉ fin := fun hin => by
        rw [hiff.mp hin] at hfin
        exact Bool.true_eq_false.mp hfin
      have hnot : id ∉ m.remove ++ fin := fun hin =>
        (List.mem_append.mp hin).elim hrem hnotfin
      refine ⟨r.t, mem_foldl_eraseId (m.remove ++ fin) ts hmem2 hnot, ?_⟩
      rw [hshape]
      exact hc

/-- Witness for C3: an infinite timer catching up two boundaries in one
pass, surviving the pass. -/
theorem C3_infinite_never_finishes_witness :
    ∃ t2, (0, t2) ∈ (({ ids := 1, timers := [(0, ⟨true, 10, 5, 0⟩)], remove := [] } :
      Manager)).timers ∧ t2.count = 0 := by
  refine (C3_infinite_never_finishes).2
    { ids := 1, timers := [(0, ⟨true, 0, 5, 0⟩)], remove := [] }
    0 ⟨true, 0, 5, 0⟩ 7 10 { ids := 1, timers := [(0, ⟨true, 10, 5, 0⟩)], remove := [] }
    (by decide) (by decide) (by decide) (by decide) (by decide) (by decide)

/-- C4: `manager::repeat` rejects `count <= 0` by returning the invalid id
with the whole scheduler state unchanged, delegates `count == 1` verbatim to
`manager::timeout`, and for `count >= 2` stores a timer whose `count` field
is `count + 1`. -/
theorem C4_repeat_count_validation :
    (∀ (m : Manager) (hb : Bool) (dur c now : Int) (fuel : Nat), c ≤ 0 →
       Manager.repeat m hb dur c now fuel = some (m, invalid_timer)) ∧
    (∀ (m : Manager) (hb : Bool) (dur now : Int) (fuel : Nat),
       Manager.repeat m hb dur 1 now fuel = Manager.timeout m hb dur now fuel) ∧
    (∀ (m : Manager) (hb : Bool) (dur c now : Int) (fuel : Nat) (m2 : Manager) (id : Nat),
       2 ≤ c → Manager.repeat m hb dur c now fuel = some (m2, id) →
       m2.timers = m.timers ++ [(id, mkTimer hb dur (c + 1) now)] ∧
       m2.remove = m.remove) := by
  refine ⟨?_, ?_, ?_⟩
  · intro m hb dur c now fuel hc
    simp [Manager.repeat, hc]
  · intro m hb dur now fuel
    simp [Manager.repeat]
  · intro m hb dur c now fuel m2 id hc h
    have hc0 : ¬ c ≤ 0 := by omega
    have hc1 : ¬ c = 1 := by omega
    simp only [Manager.repeat, if_neg hc0, if_neg hc1] at h
    cases hg : get_id_loop m.timers fuel m.ids with
    | none => rw [hg] at h; simp at h
    | some p =>
      obtain ⟨id0, ids2⟩ := p
      rw [hg] at h
      dsimp only at h
      simp only [Option.some_inj, Prod.mk.injEq] at h
      obtain ⟨rfl, rfl⟩ := h
      exact ⟨rfl, rfl⟩

/-- Witness for C4: `repeat` with counts `0`, `1` and `2` on a fresh manager. -/
theorem C4_repeat_count_validation_witness :
    Manager.repeat Manager.init true 5 0 0 4 = some (Manager.init, invalid_timer) ∧
    Manager.repeat Manager.init true 5 1 0 4 = Manager.timeout Manager.init true 5 0 4 ∧
    ({ ids := 1, timers := [(0, mkTimer true 5 3 0)], remove := [] } : Manager).timers
      = Manager.init.timers ++ [(0, mkTimer true 5 (2 + 1) 0)] := by
  refine ⟨(C4_repeat_count_validation).1 Manager.init true 5 0 0 4 (by norm_num),
          (C4_repeat_count_validation).2.1 Manager.init true 5 0 4, ?_⟩
  exact ((C4_repeat_count_validation).2.2 Manager.init true 5 2 0 4
    { ids := 1, timers := [(0, mkTimer true 5 3 0)], remove := [] } 0
    (by norm_num) (by decide)).1

/-- Double-erasing the same id in the removal phase is a no-op given unique
keys. -/
theorem foldl_eraseId_double {id : Nat} (ts : List (Nat × Timer))
    (hnodup : (ts.map Prod.fst).Nodup) (pre post : List Nat) :
    (((pre ++ [id]) ++ [id]) ++ post).foldl eraseId ts
      = ((pre ++ [id]) ++ post).foldl eraseId ts := by
  simp only [List.foldl_append, List.foldl_cons, List.foldl_nil]
  rw [eraseId_noop (keys_eraseId_self (nodup_keys_foldl pre hnodup) id)]

/-- Two tick passes from the same timers and counter agree whenever their
pending-removal lists erase the same way. -/
theorem update_congr_remove (ids : Nat) (timers : List (Nat × Timer))
    (rem1 rem2 : List Nat) (now : Int) (fuel : Nat)
    (h : ∀ ts fin, tickAll now fuel timers = some (ts, fin) →
       (rem1 ++ fin).foldl eraseId ts = (rem2 ++ fin).foldl eraseId ts) :
    Manager.update ⟨ids, timers, rem1⟩ now fuel
      = Manager.update ⟨ids, timers, rem2⟩ now fuel := by
  unfold Manager.update
  cases htick : tickAll now fuel timers with
  | none => rfl
  | some p =>
    obtain ⟨ts, fin⟩ := p
    dsimp only
    rw [h ts fin htick]

/-- Calling `cancel` with the same valid id `n` times just accumulates `n`
copies of the id on the removal list. -/
theorem cancel_iterate {id : Nat} (hid : id ≠ invalid_timer) :
    ∀ (n : Nat) (m : Manager), (fun mm => Manager.cancel mm id)^[n] m
      = ⟨m.ids, m.timers, m.remove ++ List.replicate n id⟩ := by
  intro n
  induction n with
  | zero => intro m; simp
  | succ n ih =>
    intro m
    rw [Function.iterate_succ_apply]
    rw [show Manager.cancel m id = ⟨m.ids, m.timers, m.remove ++ [id]⟩ by
      simp [Manager.cancel, hid]]
    rw [ih ⟨m.ids, m.timers, m.remove ++ [id]⟩]
    simp [List.replicate_succ]

/-- Duplicated removal entries have no additional effect: erasing an id `n`
times is the same as erasing it once, given unique keys. -/
theorem foldl_eraseId_replicate {id : Nat} (ts : List (Nat × Timer))
    (hnodup : (ts.map Prod.fst).Nodup) :
    ∀ (n : Nat) (pre post : List Nat), 1 ≤ n →
      ((pre ++ List.replicate n id) ++ post).foldl eraseId ts
        = ((pre ++ [id]) ++ post).foldl eraseId ts := by
  intro n
  induction n with
  | zero => intro pre post h; omega
  | succ n ih =>
    intro pre post h
    rcases Nat.eq_zero_or_pos n with rfl | hn
    · rfl
    · rw [show pre ++ List.replicate (n + 1) id = (pre ++ [id]) ++ List.replicate n id by
        simp [List.replicate_succ]]
      rw [ih (pre ++ [id]) post hn]
      exact foldl_eraseId_double ts hnodup pre post

/-- C6: `cancel` with the invalid sentinel changes nothing; `cancel` is
observably idempotent — any number of cancels of the same id produce the
same post-tick-pass state as one, duplicate pending entries being harmless
because the removal step looks each id up before erasing; and cancelling an
id no longer stored (already fired and reaped) leaves the next tick pass's
outcome unchanged. -/
theorem C6_cancel_idempotent :
    (∀ m : Manager, Manager.cancel m invalid_timer = m) ∧
    (∀ (m : Manager) (id : Nat) (n : Nat) (now : Int) (fuel : Nat),
       (m.timers.map Prod.fst).Nodup → 1 ≤ n →
       Manager.update ((fun mm => Manager.cancel mm id)^[n] m) now fuel
         = Manager.update (Manager.cancel m id) now fuel) ∧
    (∀ (m : Manager) (id : Nat) (now : Int) (fuel : Nat), id ∉ m.timers.map Prod.fst →
       Manager.update (Manager.cancel m id) now fuel = Manager.update m now fuel) := by
  refine ⟨fun m => by simp [Manager.cancel], ?_, ?_⟩
  · intro m id n now fuel hnodup hn
    by_cases hid : id = invalid_timer
    · subst hid
      rw [Function.iterate_fixed (by simp [Manager.cancel]) n,
        show Manager.cancel m invalid_timer = m by simp [Manager.cancel]]
    · rw [cancel_iterate hid n m,
        show Manager.cancel m id = ⟨m.ids, m.timers, m.remove ++ [id]⟩ by
          simp [Manager.cancel, hid]]
      refine update_congr_remove m.ids m.timers _ _ now fuel ?_
      intro ts fin htick
      have hkeys : (ts.map Prod.fst).Nodup := by
        rw [tickAll_keys htick]; exact hnodup
      exact foldl_eraseId_replicate ts hkeys n m.remove fin hn
  · intro m id now fuel hmem
    by_cases hid : id = invalid_timer
    · simp [Manager.cancel, hid]
    · rw [show Manager.cancel m id = ⟨m.ids, m.timers, m.remove ++ [id]⟩ by
        simp [Manager.cancel, hid],
        show m = ⟨m.ids, m.timers, m.remove⟩ from rfl]
      refine update_congr_remove m.ids m.timers _ _ now fuel ?_
      intro ts fin htick
      have hkeys : id ∉ ts.map Prod.fst := by
        rw [tickAll_keys htick]; exact hmem
      simp only [List.foldl_append, List.foldl_cons, List.foldl_nil]
      rw [eraseId_noop (not_mem_keys_foldl m.remove hkeys)]

/-- Witness for C6: cancelling id 1 twice versus once, and cancelling a
reaped id, on concrete managers. -/
theorem C6_cancel_idempotent_witness :
    Manager.cancel Manager.init invalid_timer = Manager.init ∧
    Manager.update
        ((fun mm => Manager.cancel mm 1)^[2]
          { ids := 2, timers := [(0, ⟨true, 9, 5, 0⟩), (1, ⟨true, 9, 5, 0⟩)],
            remove := [] }) 3 5
      = Manager.update
        (Manager.cancel
          { ids := 2, timers := [(0, ⟨true, 9, 5, 0⟩), (1, ⟨true, 9, 5, 0⟩)],
            remove := [] } 1) 3 5 ∧
    Manager.update (Manager.cancel
        { ids := 2, timers := [(0, ⟨true, 9, 5, 0⟩)], remove := [] } 7) 3 5
      = Manager.update { ids := 2, timers := [(0, ⟨true, 9, 5, 0⟩)], remove := [] } 3 5 := by
  refine ⟨(C6_cancel_idempotent).1 Manager.init, ?_, ?_⟩
  · exact (C6_cancel_idempotent).2.1 _ 1 2 3 5 (by decide) (by norm_num)
  · exact (C6_cancel_idempotent).2.2 _ 7 3 5 (by decide)

/-- `timers.find(id)` failing means the key is not stored. -/
theorem not_mem_keys_of_findTimer_not_isSome {timers : List (Nat × Timer)} {id : Nat}
    (h : ¬ (findTimer timers id).isSome = true) : id ∉ timers.map Prod.fst := by
  intro hmem
  obtain ⟨p, hp, hfst⟩ := List.mem_map.mp hmem
  unfold findTimer at h
  exact h (List.find?_isSome.mpr ⟨p, hp, by simp [hfst]⟩)

/-- C7: every id minted by `get_id` differs from the invalid sentinel and
from every stored key, the counter steps to `id + 1` (wrapping at `2^64`),
and registration therefore preserves uniqueness of the stored keys. -/
theorem C7_get_id_unique :
    (∀ (timers : List (Nat × Timer)) (fuel ids id ids2 : Nat),
       get_id_loop timers fuel ids = some (id, ids2) →
       id ≠ invalid_timer ∧ id ∉ timers.map Prod.fst ∧ ids2 = (id + 1) % 2 ^ 64) ∧
    (∀ (m : Manager) (hb : Bool) (dur now : Int) (fuel : Nat) (m2 : Manager) (id : Nat),
       (m.timers.map Prod.fst).Nodup →
       Manager.timeout m hb dur now fuel = some (m2, id) →
       (m2.timers.map Prod.fst).Nodup ∧ id ≠ invalid_timer) := by
  have main : ∀ (timers : List (Nat × Timer)) (fuel ids id ids2 : Nat),
      get_id_loop timers fuel ids = some (id, ids2) →
      id ≠ invalid_timer ∧ id ∉ timers.map Prod.fst ∧ ids2 = (id + 1) % 2 ^ 64 := by
    intro timers fuel
    induction fuel with
    | zero => intro ids id ids2 h; simp [get_id_loop] at h
    | succ fuel ih =>
      intro ids id ids2 h
      simp only [get_id_loop] at h
      by_cases h1 : ids = invalid_timer
      · rw [if_pos h1] at h
        exact ih _ _ _ h
      · rw [if_neg h1] at h
        by_cases h2 : (findTimer timers ids).isSome = true
        · rw [if_pos h2] at h
          exact ih _ _ _ h
        · rw [if_neg h2] at h
          simp only [Option.some_inj, Prod.mk.injEq] at h
          obtain ⟨rfl, rfl⟩ := h
          exact ⟨h1, not_mem_keys_of_findTimer_not_isSome h2, rfl⟩
  refine ⟨main, ?_⟩
  intro m hb dur now fuel m2 idr hnodup h
  unfold Manager.timeout at h
  cases hg : get_id_loop m.timers fuel m.ids with
  | none => rw [hg] at h; simp at h
  | some p =>
    obtain ⟨id0, ids2⟩ := p
    rw [hg] at h
    dsimp only at h
    simp only [Option.some_inj, Prod.mk.injEq] at h
    obtain ⟨rfl, rfl⟩ := h
    obtain ⟨hinv, hmem, _⟩ := main m.timers fuel m.ids id0 ids2 hg
    constructor
    · simp only [List.map_append, List.map_cons, List.map_nil]
      rw [List.nodup_append]
      exact ⟨hnodup, List.nodup_singleton id0, by
        intro a ha hb2
        simp only [List.mem_singleton] at hb2
        exact hmem (hb2 ▸ ha)⟩
    · exact hinv

/-- Witness for C7: minting an id on a manager already holding key 0 with
the counter at 0 skips to 1. -/
theorem C7_get_id_unique_witness :
    (1 ≠ invalid_timer ∧
       1 ∉ ([(0, (⟨true, 5, 5, 0⟩ : Timer))].map Prod.fst) ∧
       2 = (1 + 1) % 2 ^ 64) := by
  exact (C7_get_id_unique).1 [(0, ⟨true, 5, 5, 0⟩)] 4 0 1 2 (by decide)

/-- With a positive interval, one tick always completes given enough fuel. -/
theorem update_total {t : Timer} {now : Int} (hP : 0 < t.interval) :
    ∀ fuel, (now - t.next).toNat < fuel → (t.update now fuel).isSome := by
  intro fuel hfuel
  by_cases hh : t.hasHandler = true
  · by_cases hdue : t.next ≤ now
    · rcases lt_trichotomy t.count 0 with hneg | hzero | hpos
      · rw [update_oneShot hh hneg hdue fuel]; rfl
      · rw [show t.update now fuel = (loopInfinite now t.interval fuel t.next).map
            (fun p => ⟨{ t with next := p.1 }, false, p.2⟩) by
          simp [Timer.update, hh, hdue, hzero]]
        obtain ⟨p, hp⟩ := Option.isSome_iff_exists.mp
          (loopInfinite_total hP fuel t.next hfuel)
        rw [hp]; rfl
      · by_cases hone : t.count = 1
        · rw [update_countOne hh hone hdue fuel]; rfl
        · have hgt : t.count > 1 := by omega
          have h0 : ¬ t.count < 0 := by omega
          have h1 : ¬ t.count = 0 := by omega
          rw [show t.update now fuel = (loopBounded now t.interval fuel t.next t.count).map
              (fun p => ⟨{ t with next := p.1, count := p.2.1 }, p.2.2.2, p.2.2.1⟩) by
            simp [Timer.update, hh, hdue, h0, h1, hgt]]
          obtain ⟨p, hp⟩ := Option.isSome_iff_exists.mp
            (loopBounded_total hP fuel t.next t.count hfuel)
          rw [hp]; rfl
    · rw [update_notDue hh hdue fuel]; rfl
  · rw [update_noHandler (Bool.not_eq_true _ ▸ hh) fuel]; rfl

/-- C8 counterexample: a due bounded timer (`next = 0`, `interval = 5`,
`count = 3`) at `now = 0` whose callback throws ends the tick with
`next = 0` and `count = 3` (state propagated unchanged by the exception),
whereas a normally returning callback gives `next = 5`, `count = 2`.
The advance is NOT unconditional: it is skipped when the callback raises. -/
theorem C8_counterexample_throw_skips_advance :
    Timer.updateE (fun _ => true) ⟨true, 0, 5, 3⟩ 0 10
        = some (Except.error (⟨true, 0, 5, 3⟩, 0)) ∧
    Timer.update ⟨true, 0, 5, 3⟩ 0 10 = some ⟨⟨true, 5, 5, 2⟩, false, 1⟩ ∧
    ¬ ((⟨true, 0, 5, 3⟩ : Timer).next = (⟨true, 5, 5, 2⟩ : Timer).next ∧
       (⟨true, 0, 5, 3⟩ : Timer).count = (⟨true, 5, 5, 2⟩ : Timer).count) := by
  exact ⟨rfl, rfl, by decide⟩

/-- C8 amended: callback errors propagate uncaught, and because
`timer::execute` runs `handler()` *before* `next += interval` (and
`timer::update` decrements `count` after `execute` returns), a callback that
throws on the first due invocation of a tick leaves the timer exactly as it
was: neither `next` nor `count` advances for the firing that failed. -/
theorem C8_throw_leaves_state :
    (∀ t : Timer, Timer.executeE true t = Except.error t) ∧
    (∀ (t : Timer) (now : Int) (f : Nat → Bool) (fuel : Nat),
       t.hasHandler = true → t.next ≤ now → t.count ≠ 1 → f 0 = true → 1 ≤ fuel →
       t.updateE f now fuel = some (Except.error (t, 0))) := by
  refine ⟨fun t => rfl, ?_⟩
  intro t now f fuel hh hdue hc hf hfuel
  obtain ⟨fl, rfl⟩ : ∃ fl, fuel = fl + 1 := ⟨fuel - 1, by omega⟩
  obtain ⟨a, b, c, d⟩ := t
  dsimp only at hh hdue hc
  subst hh
  rcases lt_trichotomy d 0 with hneg | hzero | hpos
  · simp [Timer.updateE, hdue, hneg, hf]
  · subst hzero
    simp [Timer.updateE, hdue, loopInfiniteE, hf]
  · have hgt : d > 1 := by omega
    have h0 : ¬ d < 0 := by omega
    have h1 : ¬ d = 0 := by omega
    simp [Timer.updateE, hdue, h0, h1, hgt, loopBoundedE, hf]

/-- Witness for C8's amended theorem: a due one-shot with a throwing
callback. -/
theorem C8_throw_leaves_state_witness :
    Timer.updateE (fun _ => true) ⟨true, 0, 5, -1⟩ 0 1
        = some (Except.error (⟨true, 0, 5, -1⟩, 0)) := by
  exact (C8_throw_leaves_state).2 ⟨true, 0, 5, -1⟩ 0 (fun _ => true) 1
    (by decide) (by decide) (by decide) (by decide) (by decide)

/-- C9 counterexample: a due bounded-recurring timer (`count = 3`) with a
zero period terminates — the loop exits through the `count == 1` early
return after firing `count - 1` times — contradicting the claim that every
recurring action (`countdown >= 0`) with period zero loops forever. -/
theorem C9_counterexample_bounded_zero_period_terminates :
    Timer.update ⟨true, 0, 0, 3⟩ 0 5 = some ⟨⟨true, 0, 0, 1⟩, true, 2⟩ ∧
    Timer.update ⟨true, 0, 0, 3⟩ 0 5 ≠ none := by
  exact ⟨rfl, by decide⟩

/-- C9 amended: a tick terminates for every timer with a strictly positive
interval; a due infinite-recurring timer (`count == 0`) with a zero interval
never terminates; and registration never validates the supplied duration —
`manager::repeat` accepts any duration, zero and negative included,
whenever an id can be minted. -/
theorem C9_tick_termination :
    (∀ (t : Timer) (now : Int), 0 < t.interval → ∃ fuel, (t.update now fuel).isSome) ∧
    (∀ (t : Timer) (now : Int) (fuel : Nat),
       t.hasHandler = true → t.count = 0 → t.interval = 0 → t.next ≤ now →
       t.update now fuel = none) ∧
    (∀ (m : Manager) (hb : Bool) (dur now c : Int) (fuel : Nat) (idr ids2 : Nat),
       2 ≤ c → get_id_loop m.timers fuel m.ids = some (idr, ids2) →
       Manager.repeat m hb dur c now fuel
         = some (⟨ids2, m.timers ++ [(idr, mkTimer hb dur (c + 1) now)], m.remove⟩, idr)) := by
  refine ⟨?_, ?_, ?_⟩
  · intro t now hP
    exact ⟨(now - t.next).toNat + 1, update_total hP _ (by omega)⟩
  · intro t now fuel hh hc hP hdue
    rw [show t.update now fuel = (loopInfinite now t.interval fuel t.next).map
        (fun p => ⟨{ t with next := p.1 }, false, p.2⟩) by
      simp [Timer.update, hh, hdue, hc]]
    rw [hP, loopInfinite_zero_none fuel hdue]
    rfl
  · intro m hb dur now c fuel idr ids2 hc hg
    have hc0 : ¬ c ≤ 0 := by omega
    have hc1 : ¬ c = 1 := by omega
    simp only [Manager.repeat, if_neg hc0, if_neg hc1]
    rw [hg]

/-- Witness for C9's amended theorem: an infinite timer with zero period due
at `now = 0` exhausts any fuel, while a positive-period timer completes. -/
theorem C9_tick_termination_witness :
    Timer.update ⟨true, 0, 0, 0⟩ 0 7 = none ∧
    (∃ fuel, ((⟨true, 0, 5, 0⟩ : Timer).update 0 fuel).isSome) := by
  refine ⟨(C9_tick_termination).2.1 ⟨true, 0, 0, 0⟩ 0 7 (by decide) (by decide)
    (by decide) (by decide), ?_⟩
  exact (C9_tick_termination).1 ⟨true, 0, 5, 0⟩ 0 (by decide)

/-- C10: `manager::clear` empties the timer map and resets the id counter to
zero but leaves the pending-removal list untouched; consequently an id
cancelled before `clear` stays pending, the reset counter re-mints the same
id for a new registration, and the next tick pass removes that new action
even though it was never cancelled. -/
theorem C10_clear_keeps_pending_removals :
    (∀ m : Manager, (Manager.clear m).timers = [] ∧ (Manager.clear m).ids = 0 ∧
       (Manager.clear m).remove = m.remove) ∧
    (∀ (m : Manager) (hb : Bool) (dur now now2 : Int) (fuel fuel2 : Nat)
       (m2 : Manager) (idr : Nat) (m3 : Manager),
       idr ∈ m.remove →
       Manager.timeout (Manager.clear m) hb dur now fuel = some (m2, idr) →
       Manager.update m2 now2 fuel2 = some m3 →
       idr ∉ m3.timers.map Prod.fst) := by
  refine ⟨fun m => ⟨rfl, rfl, rfl⟩, ?_⟩
  intro m hb dur now now2 fuel fuel2 m2 idr m3 hrem htime hupd
  unfold Manager.timeout at htime
  cases hg : get_id_loop (Manager.clear m).timers fuel (Manager.clear m).ids with
  | none => rw [hg] at htime; simp at htime
  | some p =>
    obtain ⟨id0, ids2⟩ := p
    rw [hg] at htime
    dsimp only at htime
    simp only [Option.some_inj, Prod.mk.injEq] at htime
    obtain ⟨rfl, rfl⟩ := htime
    unfold Manager.update at hupd
    cases htick : tickAll now2 fuel2 [(id0, mkTimer hb dur (-1) now)] with
    | none =>
      rw [show (Manager.clear m).timers ++ [(id0, mkTimer hb dur (-1) now)]
          = [(id0, mkTimer hb dur (-1) now)] from rfl, htick] at hupd
      simp at hupd
    | some q =>
      obtain ⟨ts, fin⟩ := q
      rw [show (Manager.clear m).timers ++ [(id0, mkTimer hb dur (-1) now)]
          = [(id0, mkTimer hb dur (-1) now)] from rfl, htick] at hupd
      dsimp only at hupd
      obtain rfl := Option.some.inj hupd
      have hkeys : (ts.map Prod.fst).Nodup := by
        rw [tickAll_keys htick]
        exact List.nodup_singleton id0
      exact foldl_eraseId_removes _ ts hkeys (List.mem_append.mpr (Or.inl hrem))

/-- Witness for C10: id 0 cancelled, manager cleared, a fresh timeout minted
as id 0 again, and the next pass removes it although never cancelled. -/
theorem C10_clear_keeps_pending_removals_witness :
    0 ∉ (({ ids := 1, timers := [], remove := [] } : Manager)).timers.map Prod.fst := by
  refine (C10_clear_keeps_pending_removals).2
    { ids := 5, timers := [], remove := [0] } true 5 0 20 3 3
    { ids := 1, timers := [(0, mkTimer true 5 (-1) 0)], remove := [0] } 0
    { ids := 1, timers := [], remove := [] }
    (by decide) (by decide) (by decide)

end Cpptimer
